import Mathlib

/-!
Verification of the Wireworld simulation engine (src/main.rs) against its
specification.  The core of the program is embedded shallowly: the board
`Vec<Vec<Cell>>` becomes `List (List Cell)`, the dirty set
`HashSet<(usize, usize)>` becomes a duplicate-free `List (Nat × Nat)`,
`usize` arithmetic that can wrap is made explicit, and partial operations
(Rust indexing, which panics out of range) return `Option`.
-/

set_option maxHeartbeats 1000000

/-- The four cell states of the `Cell` enum in src/main.rs. -/
inductive Cell
  | Empty
  | Head
  | Tail
  | Conductor
deriving DecidableEq, Repr

/-- Wrapping subtraction of `usize` values, as performed by the unchecked
release-mode `-` in the bound expressions `self.height - 2`, `self.width - 2`,
`self.width - 1` and `self.height - 1`.  For operands below `2 ^ 64` this
agrees with Rust's `usize::wrapping_sub`. -/
def usizeSub (a b : Nat) : Nat := if b ≤ a then a - b else a + (2 ^ 64 - b)

/-- The lookup `board[y][x]`.  Rust `Vec` indexing panics when the index is
out of range; the embedding returns `none` there. -/
def get2 (b : List (List Cell)) (y x : Nat) : Option Cell :=
  b[y]?.bind fun row => row[x]?

/-- The store `board[y][x] = c`.  Out-of-range positions are left untouched
(every call site of the program first establishes that the position is in
range, so that branch is never taken on reachable states). -/
def set2 (b : List (List Cell)) (y x : Nat) (c : Cell) : List (List Cell) :=
  match b[y]? with
  | some row => b.set y (row.set x c)
  | none => b

/-- The Rust inclusive range `a..=b` as a list (empty when `a > b`). -/
def rangeIncl (a b : Nat) : List Nat := List.range' a (b + 1 - a)

/-- Insertion into a `HashSet`, modelled on duplicate-free lists: a member
is not inserted twice. -/
def insertU (p : Nat × Nat) (l : List (Nat × Nat)) : List (Nat × Nat) :=
  if p ∈ l then l else p :: l

/-- Insert a whole list of coordinates, left to right, `HashSet`-style. -/
def insertAllU (ps : List (Nat × Nat)) (u : List (Nat × Nat)) : List (Nat × Nat) :=
  ps.foldl (fun acc q => insertU q acc) u

/-- The `Wireworld` struct of src/main.rs, restricted to the simulation
core: the board, its dimensions, and the dirty set `updates`.  The
rendering fields (offsets, scale, pause flag, image, texture, timer) carry
no simulation state and are omitted. -/
structure Wireworld where
  board : List (List Cell)
  width : Nat
  height : Nat
  updates : List (Nat × Nat)
deriving DecidableEq, Repr

/-- The list of positions `(c_x, c_y)` scanned by the neighbour loop of
`Wireworld::next_state` (outer loop over `c_y`, inner over `c_x`), with the
source's exact bound expressions, including the wrapping `height - 2` /
`width - 2`. -/
def scanList (width height x y : Nat) : List (Nat × Nat) :=
  (rangeIncl (if y = 0 then 0 else y - 1)
      (if y > usizeSub height 2 then usizeSub height 1 else y + 1)).flatMap fun cy =>
    (rangeIncl (if x = 0 then 0 else x - 1)
        (if x > usizeSub width 2 then usizeSub width 1 else x + 1)).map fun cx => (cx, cy)

/-- The running count of `Cell::Head` neighbours over the scanned
positions; `none` as soon as a lookup `board[c_y][c_x]` is out of range. -/
def countHeads (b : List (List Cell)) : List (Nat × Nat) → Option Nat
  | [] => some 0
  | p :: rest =>
    match get2 b p.2 p.1, countHeads b rest with
    | some c, some n => some (if c = Cell.Head then n + 1 else n)
    | _, _ => none

/-- `Wireworld::next_state` over the raw board data: `Empty → Empty`,
`Head → Tail`, `Tail → Conductor`; a `Conductor` becomes a `Head` exactly
when the neighbour scan counts 1 or 2 heads.  `none` models a panic
(indexing out of range). -/
def nextStateCore (b : List (List Cell)) (width height x y : Nat) : Option Cell :=
  match get2 b y x with
  | none => none
  | some Cell.Empty => some Cell.Empty
  | some Cell.Head => some Cell.Tail
  | some Cell.Tail => some Cell.Conductor
  | some Cell.Conductor =>
    (countHeads b (scanList width height x y)).map fun n =>
      if n = 1 ∨ n = 2 then Cell.Head else Cell.Conductor

/-- `Wireworld::next_state` (src/main.rs lines 105–135). -/
def Wireworld.next_state (w : Wireworld) (x y : Nat) : Option Cell :=
  nextStateCore w.board w.width w.height x y

/-- The clamped 3×3 neighbourhood inserted around a position, with the
source's exact bounds `((p.0 as isize - 1).max(0) as usize)..=(p.0 + 1).min(width - 1)`
(outer loop over x, inner over y); shared by `Wireworld::insert_cell` and
`Wireworld::next_generation`. -/
def nbhdList (width height : Nat) (p : Nat × Nat) : List (Nat × Nat) :=
  (rangeIncl (p.1 - 1) (min (p.1 + 1) (usizeSub width 1))).flatMap fun nx =>
    (rangeIncl (p.2 - 1) (min (p.2 + 1) (usizeSub height 1))).map fun ny => (nx, ny)

/-- `Wireworld::insert_cell` (src/main.rs lines 190–198): write the cell and
mark the position together with its clamped 3×3 neighbourhood dirty.  Its
callers in `handle_mouse_input` always check bounds first. -/
def Wireworld.insert_cell (w : Wireworld) (c : Cell) (x y : Nat) : Wireworld :=
  { w with
    board := set2 w.board y x c
    updates := insertAllU (nbhdList w.width w.height (x, y)) (insertU (x, y) w.updates) }

/-- The error kinds of the specification (§7). -/
inductive EngineError
  | InvalidDimensions
  | OutOfBounds
deriving DecidableEq, Repr

/-- The engine's `edit` operation: the bounds guard is the one performed by
`handle_mouse_input` (src/main.rs line 174) before calling `insert_cell`;
the `OutOfBounds` result value on the rejecting branch is modelled from the
spec (§6), the source simply skips the call there. -/
def Wireworld.edit (w : Wireworld) (x y : Nat) (c : Cell) : Except EngineError Wireworld :=
  if x < w.width ∧ y < w.height then .ok (w.insert_cell c x y) else .error .OutOfBounds

/-- Modelled from the spec: the read-only query `cellAt` (§6) is not a
named function of the source (the program reads `self.board[pos.1][pos.0]`
directly at guarded call sites); it is the guarded board lookup. -/
def Wireworld.cellAt (w : Wireworld) (x y : Nat) : Except EngineError Cell :=
  if x < w.width ∧ y < w.height then
    match get2 w.board y x with
    | some c => .ok c
    | none => .error .OutOfBounds
  else .error .OutOfBounds

/-- An edit as the program performs it: apply when in bounds, discard the
rejected edit otherwise (`handle_mouse_input` ignores out-of-range clicks). -/
def Wireworld.applyEdit (w : Wireworld) (x y : Nat) (c : Cell) : Wireworld :=
  match w.edit x y c with
  | .ok w' => w'
  | .error _ => w

/-- `Wireworld::new` (src/main.rs lines 62–80), simulation fields only: an
all-`Empty` board of the requested dimensions and an empty dirty set.  The
source performs no validation of the dimensions. -/
def Wireworld.new (width height : Nat) : Wireworld :=
  { board := List.replicate height (List.replicate width Cell.Empty)
    width := width
    height := height
    updates := [] }

/-- The body of the `for pos in &self.updates` loop of
`Wireworld::next_generation`: evaluate `next_state` against the pre-tick
board, compare with the accumulator board, and on a difference commit the
write and mark the position plus its neighbourhood in the next dirty set. -/
def processPos (w0 : Wireworld) (acc : List (List Cell) × List (Nat × Nat)) (p : Nat × Nat) :
    Option (List (List Cell) × List (Nat × Nat)) :=
  match w0.next_state p.1 p.2, get2 acc.1 p.2 p.1 with
  | some cnext, some cur =>
    if cnext ≠ cur then
      some (set2 acc.1 p.2 p.1 cnext,
        insertAllU (nbhdList w0.width w0.height p) (insertU p acc.2))
    else some acc
  | _, _ => none

/-- The loop of `Wireworld::next_generation`, iterating the working set in
a given order. -/
def nextGenerationAux (w0 : Wireworld) :
    List (Nat × Nat) → List (List Cell) × List (Nat × Nat) →
    Option (List (List Cell) × List (Nat × Nat))
  | [], acc => some acc
  | p :: rest, acc => (processPos w0 acc p).bind (nextGenerationAux w0 rest)

/-- `Wireworld::next_generation` run with an explicit iteration order for
the `HashSet` of dirty positions: start from a clone of the board and an
empty next dirty set, process every working-set position, then commit. -/
def nextGenerationWith (w : Wireworld) (order : List (Nat × Nat)) : Option Wireworld :=
  (nextGenerationAux w order (w.board, [])).map fun acc =>
    { w with board := acc.1, updates := acc.2 }

/-- `Wireworld::next_generation` (src/main.rs lines 83–102), iterating the
working set in the order of the stored list. -/
def Wireworld.next_generation (w : Wireworld) : Option Wireworld :=
  nextGenerationWith w w.updates

/-- `n` consecutive ticks. -/
def stepN : Nat → Wireworld → Option Wireworld
  | 0, w => some w
  | n + 1, w => w.next_generation.bind (stepN n)

/-- Brute-force reference tick, following the spec's words (§8): recompute
`next_state` for every in-bounds coordinate of the pre-tick board and
rebuild the whole board from the results; fails if any evaluation fails. -/
def bruteStep (w : Wireworld) : Option Wireworld :=
  if ∀ y, y < w.height → ∀ x, x < w.width →
      (nextStateCore w.board w.width w.height x y).isSome then
    some { w with board :=
      (List.range w.height).map fun y =>
        (List.range w.width).map fun x =>
          (nextStateCore w.board w.width w.height x y).getD Cell.Empty }
  else none

/-- An edit on the brute-force side: the same guarded board write, with no
dirty tracking. -/
def bruteEdit (w : Wireworld) (x y : Nat) (c : Cell) : Wireworld :=
  if x < w.width ∧ y < w.height then { w with board := set2 w.board y x c } else w

/-- One interaction with the engine: an edit or a tick. -/
inductive Op
  | edit (x y : Nat) (c : Cell)
  | step
deriving DecidableEq, Repr

/-- Run an interleaved sequence of edits and ticks on the incremental
engine; a failed tick (panic) aborts the run. -/
def runInc : Wireworld → List Op → Option Wireworld
  | w, [] => some w
  | w, Op.edit x y c :: ops => runInc (w.applyEdit x y c) ops
  | w, Op.step :: ops => w.next_generation.bind fun w' => runInc w' ops

/-- Run the same sequence with brute-force full-board ticks. -/
def runBrute : Wireworld → List Op → Option Wireworld
  | w, [] => some w
  | w, Op.edit x y c :: ops => runBrute (bruteEdit w x y c) ops
  | w, Op.step :: ops => (bruteStep w).bind fun w' => runBrute w' ops

/-- Modelled from the spec: the dimension-validating constructor of §4.2/§6
(`new → Engine | InvalidDimensions`); no such validation exists in the
source. -/
def newChecked (width height : Nat) : Except EngineError Wireworld :=
  if width = 0 ∨ height = 0 then .error .InvalidDimensions
  else .ok (Wireworld.new width height)

/-- `q` is `p` itself or one of its in-bounds Moore neighbours. -/
def mooreCl (width height : Nat) (p q : Nat × Nat) : Prop :=
  q.1 < width ∧ q.2 < height ∧
    p.1 ≤ q.1 + 1 ∧ q.1 ≤ p.1 + 1 ∧ p.2 ≤ q.2 + 1 ∧ q.2 ≤ p.2 + 1

/-- The states the program can reach: a fresh engine, followed by any
interleaving of (bounds-guarded) edits and successful ticks. -/
inductive Reachable : Wireworld → Prop
  | init (width height : Nat) : Reachable (Wireworld.new width height)
  | edit {w : Wireworld} (x y : Nat) (c : Cell) :
      Reachable w → Reachable (w.applyEdit x y c)
  | step {w w' : Wireworld} : Reachable w → w.next_generation = some w' → Reachable w'

/-- The board data has exactly `height` rows of length `width` each. -/
def Shape (b : List (List Cell)) (width height : Nat) : Prop :=
  b.length = height ∧ ∀ row ∈ b, row.length = width

/-- The invariant maintained by the engine: well-shaped board, in-bounds and
duplicate-free dirty set, and stability outside the dirty set — the next
state of any in-bounds coordinate not in the dirty set is its current
state. -/
def WF (w : Wireworld) : Prop :=
  Shape w.board w.width w.height ∧
  (∀ p ∈ w.updates, p.1 < w.width ∧ p.2 < w.height) ∧
  w.updates.Nodup ∧
  (∀ x y, x < w.width → y < w.height → (x, y) ∉ w.updates →
    w.next_state x y = get2 w.board y x)

/-- All in-bounds coordinates of a `width` × `height` grid, as a list. -/
def gridList (width height : Nat) : List (Nat × Nat) :=
  (List.range width).flatMap fun a => (List.range height).map fun c => ((a, c) : Nat × Nat)

/-- The in-bounds Moore neighbours of `(x, y)` — the up to 8 adjacent
coordinates, the cell itself excluded, coordinates outside the grid
excluded — as the specification counts them (§4.1). -/
def mooreNbrs (width height x y : Nat) : List (Nat × Nat) :=
  (gridList width height).filter fun r =>
    decide (r ≠ ((x, y) : Nat × Nat)) && decide (x ≤ r.1 + 1) && decide (r.1 ≤ x + 1) &&
      decide (y ≤ r.2 + 1) && decide (r.2 ≤ y + 1)

/-- The number of in-bounds Moore neighbours of `(x, y)` currently holding
`ElectronHead` (§4.1). -/
def mooreHeadCount (b : List (List Cell)) (width height x y : Nat) : Nat :=
  (mooreNbrs width height x y).countP fun r => decide (get2 b r.2 r.1 = some Cell.Head)

/-! ### Basic facts about ranges, set insertion and board access -/

theorem mem_rangeIncl {m a b : Nat} : m ∈ rangeIncl a b ↔ a ≤ m ∧ m ≤ b := by
  unfold rangeIncl
  rw [List.mem_range'_1]
  omega

theorem mem_insertU {q p : Nat × Nat} {l : List (Nat × Nat)} :
    q ∈ insertU p l ↔ q = p ∨ q ∈ l := by
  unfold insertU
  by_cases hp : p ∈ l
  · rw [if_pos hp]
    constructor
    · exact Or.inr
    · rintro (rfl | h) <;> assumption
  · rw [if_neg hp, List.mem_cons]

theorem nodup_insertU {p : Nat × Nat} {l : List (Nat × Nat)} (h : l.Nodup) :
    (insertU p l).Nodup := by
  by_cases hp : p ∈ l <;> simp [insertU, hp, List.nodup_cons, h]

theorem mem_insertAllU {q : Nat × Nat} {ps u : List (Nat × Nat)} :
    q ∈ insertAllU ps u ↔ q ∈ ps ∨ q ∈ u := by
  induction ps generalizing u with
  | nil => simp [insertAllU]
  | cons p ps ih =>
    have : insertAllU (p :: ps) u = insertAllU ps (insertU p u) := rfl
    rw [this, ih, mem_insertU]
    simp only [List.mem_cons]
    tauto

theorem nodup_insertAllU {ps u : List (Nat × Nat)} (h : u.Nodup) :
    (insertAllU ps u).Nodup := by
  induction ps generalizing u with
  | nil => exact h
  | cons p ps ih =>
    have : insertAllU (p :: ps) u = insertAllU ps (insertU p u) := rfl
    rw [this]
    exact ih (nodup_insertU h)

theorem get2_set2_self {b : List (List Cell)} {y x : Nat} {c cur : Cell}
    (h : get2 b y x = some cur) : get2 (set2 b y x c) y x = some c := by
  unfold get2 at h ⊢
  unfold set2
  cases hb : b[y]? with
  | none => rw [hb] at h; cases h
  | some row =>
    rw [hb] at h
    have h' : row[x]? = some cur := h
    have h1 : (b.set y (row.set x c))[y]? = some (row.set x c) := by
      rw [List.getElem?_set_self', hb]; rfl
    rw [h1]
    show (row.set x c)[x]? = some c
    rw [List.getElem?_set_self', h']
    rfl

theorem get2_set2_ne {b : List (List Cell)} {y x y' x' : Nat} {c : Cell}
    (h : (x', y') ≠ (x, y)) : get2 (set2 b y x c) y' x' = get2 b y' x' := by
  unfold get2 set2
  cases hb : b[y]? with
  | none => rfl
  | some row =>
    by_cases hy : y' = y
    · subst hy
      have hx : x' ≠ x := fun hx => h (by rw [hx])
      rw [List.getElem?_set_self', hb]
      show (row.set x c)[x']? = (some row).bind fun r => r[x']?
      show (row.set x c)[x']? = row[x']?
      rw [List.getElem?_set_ne (Ne.symm hx)]
    · rw [List.getElem?_set_ne (Ne.symm hy)]

theorem set2_rowShape {b : List (List Cell)} {y x : Nat} {c : Cell} (y' : Nat) :
    ((set2 b y x c)[y']?).map List.length = (b[y']?).map List.length := by
  unfold set2
  cases hb : b[y]? with
  | none => rfl
  | some row =>
    by_cases hy : y' = y
    · subst hy
      rw [List.getElem?_set_self', hb]
      show some (row.set x c).length = some row.length
      rw [List.length_set]
    · rw [List.getElem?_set_ne (Ne.symm hy)]

theorem shape_set2 {b : List (List Cell)} {w h : Nat} (hs : Shape b w h)
    (y x : Nat) (c : Cell) : Shape (set2 b y x c) w h := by
  obtain ⟨hlen, hrow⟩ := hs
  unfold set2
  cases hb : b[y]? with
  | none => exact ⟨hlen, hrow⟩
  | some row =>
    constructor
    · rw [List.length_set]; exact hlen
    · intro r hr
      rcases List.mem_or_eq_of_mem_set hr with h1 | h1
      · exact hrow r h1
      · subst h1
        rw [List.length_set]
        exact hrow row (List.getElem?_mem hb)

theorem get2_isSome_of_shape {b : List (List Cell)} {w h x y : Nat}
    (hs : Shape b w h) (hx : x < w) (hy : y < h) : ∃ c, get2 b y x = some c := by
  obtain ⟨hlen, hrow⟩ := hs
  have hy' : y < b.length := by omega
  have hb : b[y]? = some b[y] := List.getElem?_eq_getElem hy'
  have hxr : x < b[y].length := by
    rw [hrow b[y] (List.getElem_mem hy')]; exact hx
  exact ⟨b[y][x], by unfold get2; rw [hb]; simp [List.getElem?_eq_getElem hxr]⟩

theorem get2_none_of_row_oob {b : List (List Cell)} {w h x y : Nat}
    (hs : Shape b w h) (hy : h ≤ y) : get2 b y x = none := by
  have hlen := hs.1
  unfold get2
  rw [List.getElem?_eq_none (by omega : b.length ≤ y)]
  rfl

theorem get2_none_of_col_oob {b : List (List Cell)} {w h x y : Nat}
    (hs : Shape b w h) (hx : w ≤ x) : get2 b y x = none := by
  unfold get2
  cases hb : b[y]? with
  | none => rfl
  | some row =>
    show row[x]? = none
    rw [List.getElem?_eq_none]
    rw [hs.2 row (List.getElem?_mem hb)]
    exact hx

theorem ext2_of_shape {b₁ b₂ : List (List Cell)} {w h : Nat}
    (h₁ : Shape b₁ w h) (h₂ : Shape b₂ w h)
    (hp : ∀ y x, get2 b₁ y x = get2 b₂ y x) : b₁ = b₂ := by
  have hl₁ := h₁.1
  have hl₂ := h₂.1
  apply List.ext_getElem?
  intro y
  by_cases hy : y < h
  · have hy₁ : y < b₁.length := by omega
    have hy₂ : y < b₂.length := by omega
    rw [List.getElem?_eq_getElem hy₁, List.getElem?_eq_getElem hy₂]
    congr 1
    apply List.ext_getElem?
    intro x
    have e₁ : get2 b₁ y x = b₁[y][x]? := by
      unfold get2; rw [List.getElem?_eq_getElem hy₁]; rfl
    have e₂ : get2 b₂ y x = b₂[y][x]? := by
      unfold get2; rw [List.getElem?_eq_getElem hy₂]; rfl
    rw [← e₁, ← e₂]
    exact hp y x
  · rw [List.getElem?_eq_none (by omega : b₁.length ≤ y),
      List.getElem?_eq_none (by omega : b₂.length ≤ y)]

/-! ### Geometry of the neighbour scan and the dirty neighbourhood -/

theorem usizeSub_sub {a b : Nat} (h : b ≤ a) : usizeSub a b = a - b := by
  unfold usizeSub; rw [if_pos h]

theorem mem_nbhdList {width height : Nat} {p q : Nat × Nat} :
    q ∈ nbhdList width height p ↔
      p.1 - 1 ≤ q.1 ∧ q.1 ≤ min (p.1 + 1) (usizeSub width 1) ∧
      p.2 - 1 ≤ q.2 ∧ q.2 ≤ min (p.2 + 1) (usizeSub height 1) := by
  unfold nbhdList
  rw [List.mem_flatMap]
  constructor
  · rintro ⟨nx, hnx, hq⟩
    rw [List.mem_map] at hq
    obtain ⟨ny, hny, rfl⟩ := hq
    rw [mem_rangeIncl] at hnx hny
    exact ⟨hnx.1, hnx.2, hny.1, hny.2⟩
  · rintro ⟨h1, h2, h3, h4⟩
    exact ⟨q.1, mem_rangeIncl.2 ⟨h1, h2⟩,
      List.mem_map.2 ⟨q.2, mem_rangeIncl.2 ⟨h3, h4⟩, rfl⟩⟩

theorem mem_scanList {width height x y : Nat} {r : Nat × Nat} :
    r ∈ scanList width height x y ↔
      (if y = 0 then 0 else y - 1) ≤ r.2 ∧
      r.2 ≤ (if y > usizeSub height 2 then usizeSub height 1 else y + 1) ∧
      (if x = 0 then 0 else x - 1) ≤ r.1 ∧
      r.1 ≤ (if x > usizeSub width 2 then usizeSub width 1 else x + 1) := by
  unfold scanList
  rw [List.mem_flatMap]
  constructor
  · rintro ⟨cy, hcy, hq⟩
    rw [List.mem_map] at hq
    obtain ⟨cx, hcx, rfl⟩ := hq
    rw [mem_rangeIncl] at hcy hcx
    exact ⟨hcy.1, hcy.2, hcx.1, hcx.2⟩
  · rintro ⟨h1, h2, h3, h4⟩
    exact ⟨r.2, mem_rangeIncl.2 ⟨h1, h2⟩,
      List.mem_map.2 ⟨r.1, mem_rangeIncl.2 ⟨h3, h4⟩, rfl⟩⟩

theorem mooreCl_mem_nbhdList {width height : Nat} {p q : Nat × Nat}
    (hp1 : p.1 < width) (hp2 : p.2 < height) (h : mooreCl width height p q) :
    q ∈ nbhdList width height p := by
  obtain ⟨hq1, hq2, h1, h2, h3, h4⟩ := h
  rw [mem_nbhdList, usizeSub_sub (Nat.zero_lt_of_lt hp1),
    usizeSub_sub (Nat.zero_lt_of_lt hp2)]
  omega

theorem nbhdList_inBounds {width height : Nat} {p q : Nat × Nat}
    (hp1 : p.1 < width) (hp2 : p.2 < height) (hq : q ∈ nbhdList width height p) :
    q.1 < width ∧ q.2 < height := by
  rw [mem_nbhdList, usizeSub_sub (by omega : 1 ≤ width),
    usizeSub_sub (by omega : 1 ≤ height)] at hq
  omega

theorem scanLo_le {y : Nat} : (if y = 0 then 0 else y - 1) ≤ y := by
  split <;> omega

theorem le_scanHi {height y : Nat} (hy : y < height) :
    y ≤ (if y > usizeSub height 2 then usizeSub height 1 else y + 1) := by
  split
  · rw [usizeSub_sub (by omega : 1 ≤ height)]
    omega
  · omega

theorem scan_self_mem {width height x y : Nat} (hx : x < width) (hy : y < height) :
    (x, y) ∈ scanList width height x y := by
  rw [mem_scanList]
  exact ⟨scanLo_le, le_scanHi hy, scanLo_le, le_scanHi hx⟩

theorem scan_mem_col_oob {height x y : Nat} (hx : x < 1) (hy : y < height) :
    ((1 : Nat), y) ∈ scanList 1 height x y := by
  rw [mem_scanList]
  refine ⟨scanLo_le, le_scanHi hy, by split <;> omega, ?_⟩
  have hx0 : x = 0 := by omega
  subst hx0
  rw [if_neg (Nat.not_lt_zero _)]

theorem scan_mem_row_oob {width x y : Nat} (hx : x < width) (hy : y < 1) :
    (x, (1 : Nat)) ∈ scanList width 1 x y := by
  rw [mem_scanList]
  have hy0 : y = 0 := by omega
  subst hy0
  refine ⟨by split <;> omega, ?_, scanLo_le, le_scanHi hx⟩
  rw [if_neg (Nat.not_lt_zero _)]

theorem scan_inBounds {width height x y : Nat} {r : Nat × Nat}
    (hw : 2 ≤ width) (hh : 2 ≤ height) (hx : x < width) (hy : y < height)
    (hr : r ∈ scanList width height x y) : r.1 < width ∧ r.2 < height := by
  rw [mem_scanList, usizeSub_sub (by omega : 2 ≤ width),
    usizeSub_sub (by omega : 2 ≤ height), usizeSub_sub (by omega : 1 ≤ width),
    usizeSub_sub (by omega : 1 ≤ height)] at hr
  split_ifs at hr <;> omega

theorem scan_mem_nbhdList {width height : Nat} {q r : Nat × Nat}
    (hw : 2 ≤ width) (hh : 2 ≤ height) (hq1 : q.1 < width) (hq2 : q.2 < height)
    (hr : r ∈ scanList width height q.1 q.2) : q ∈ nbhdList width height r := by
  rw [mem_scanList, usizeSub_sub (by omega : 2 ≤ width),
    usizeSub_sub (by omega : 2 ≤ height), usizeSub_sub (by omega : 1 ≤ width),
    usizeSub_sub (by omega : 1 ≤ height)] at hr
  rw [mem_nbhdList, usizeSub_sub (by omega : 1 ≤ width),
    usizeSub_sub (by omega : 1 ≤ height)]
  split_ifs at hr <;> omega

/-! ### The neighbour count and the transition function -/

theorem countHeads_isSome {b : List (List Cell)} {ps : List (Nat × Nat)}
    (h : ∀ r ∈ ps, (get2 b r.2 r.1).isSome) : (countHeads b ps).isSome := by
  induction ps with
  | nil => rfl
  | cons p rest ih =>
    obtain ⟨c, hc⟩ := Option.isSome_iff_exists.1 (h p (List.mem_cons_self p rest))
    obtain ⟨n, hn⟩ :=
      Option.isSome_iff_exists.1 (ih fun r hr => h r (List.mem_cons_of_mem p hr))
    simp [countHeads, hc, hn]

theorem countHeads_none {b : List (List Cell)} {ps : List (Nat × Nat)} {r : Nat × Nat}
    (hr : r ∈ ps) (h : get2 b r.2 r.1 = none) : countHeads b ps = none := by
  induction ps with
  | nil => cases hr
  | cons p rest ih =>
    rcases List.mem_cons.1 hr with rfl | hr'
    · cases hcr : countHeads b rest <;> simp [countHeads, h, hcr]
    · cases hg : get2 b p.2 p.1 <;> simp [countHeads, hg, ih hr']

theorem countHeads_congr {b₁ b₂ : List (List Cell)} {ps : List (Nat × Nat)}
    (h : ∀ r ∈ ps, get2 b₁ r.2 r.1 = get2 b₂ r.2 r.1) :
    countHeads b₁ ps = countHeads b₂ ps := by
  induction ps with
  | nil => rfl
  | cons p rest ih =>
    unfold countHeads
    rw [h p (List.mem_cons_self p rest),
      ih fun r hr => h r (List.mem_cons_of_mem p hr)]

theorem nextStateCore_congr {b₁ b₂ : List (List Cell)} {width height x y : Nat}
    (h0 : get2 b₁ y x = get2 b₂ y x)
    (hsc : ∀ r ∈ scanList width height x y, get2 b₁ r.2 r.1 = get2 b₂ r.2 r.1) :
    nextStateCore b₁ width height x y = nextStateCore b₂ width height x y := by
  unfold nextStateCore
  rw [h0, countHeads_congr hsc]

theorem nextStateCore_isSome {b : List (List Cell)} {width height x y : Nat}
    (hshape : Shape b width height) (hw : 2 ≤ width) (hh : 2 ≤ height)
    (hx : x < width) (hy : y < height) : (nextStateCore b width height x y).isSome := by
  obtain ⟨c, hc⟩ := get2_isSome_of_shape hshape hx hy
  unfold nextStateCore
  rw [hc]
  cases c
  · rfl
  · rfl
  · rfl
  · have hsome : (countHeads b (scanList width height x y)).isSome := by
      apply countHeads_isSome
      intro r hr
      obtain ⟨hr1, hr2⟩ := scan_inBounds hw hh hx hy hr
      obtain ⟨c', hc'⟩ := get2_isSome_of_shape hshape hr1 hr2
      rw [hc']
      rfl
    obtain ⟨n, hn⟩ := Option.isSome_iff_exists.1 hsome
    rw [hn]
    rfl

theorem nextStateCore_conductor_degenerate {b : List (List Cell)} {width height x y : Nat}
    (hshape : Shape b width height) (hdeg : width = 1 ∨ height = 1)
    (hx : x < width) (hy : y < height) (hc : get2 b y x = some Cell.Conductor) :
    nextStateCore b width height x y = none := by
  unfold nextStateCore
  rw [hc]
  have hnone : countHeads b (scanList width height x y) = none := by
    rcases hdeg with hw | hh
    · subst hw
      exact countHeads_none (scan_mem_col_oob hx hy)
        (get2_none_of_col_oob hshape (by omega))
    · subst hh
      exact countHeads_none (scan_mem_row_oob hx hy)
        (get2_none_of_row_oob hshape (by omega))
  rw [hnone]
  rfl

theorem nextStateCore_some_get2 {b : List (List Cell)} {width height x y : Nat} {c : Cell}
    (h : nextStateCore b width height x y = some c) : ∃ c0, get2 b y x = some c0 := by
  unfold nextStateCore at h
  cases hg : get2 b y x with
  | none => rw [hg] at h; cases h
  | some c0 => exact ⟨c0, rfl⟩

theorem nextStateCore_nonconductor {b : List (List Cell)} {width height x y : Nat}
    {c : Cell} (hg : get2 b y x = some c) :
    (c = Cell.Empty → nextStateCore b width height x y = some Cell.Empty) ∧
    (c = Cell.Head → nextStateCore b width height x y = some Cell.Tail) ∧
    (c = Cell.Tail → nextStateCore b width height x y = some Cell.Conductor) := by
  refine ⟨fun h => ?_, fun h => ?_, fun h => ?_⟩ <;>
    (subst h; unfold nextStateCore; rw [hg])

/-! ### Characterization of one pass of the `next_generation` loop -/

theorem nextGenerationAux_nil (w0 : Wireworld) (acc : List (List Cell) × List (Nat × Nat)) :
    nextGenerationAux w0 [] acc = some acc := rfl

theorem nextGenerationAux_cons (w0 : Wireworld) (p : Nat × Nat) (rest : List (Nat × Nat))
    (acc : List (List Cell) × List (Nat × Nat)) :
    nextGenerationAux w0 (p :: rest) acc =
      (processPos w0 acc p).bind (nextGenerationAux w0 rest) := rfl

/-- For a duplicate-free iteration order whose positions still hold their
pre-tick values in the accumulator: the loop fails exactly when
`next_state` fails at some position of the order; on success the final
board is `next_state` at ordered positions and the accumulator elsewhere,
the produced dirty set is exactly the changed positions with their
neighbourhoods (on top of the accumulated one), row shapes are preserved,
and so is duplicate-freedom. -/
theorem nextGenerationAux_char (w0 : Wireworld) :
    ∀ (order : List (Nat × Nat)) (nb : List (List Cell)) (nu : List (Nat × Nat)),
    order.Nodup →
    (∀ p ∈ order, get2 nb p.2 p.1 = get2 w0.board p.2 p.1) →
    ((nextGenerationAux w0 order (nb, nu) = none ↔
      ∃ p ∈ order, w0.next_state p.1 p.2 = none) ∧
    ∀ res, nextGenerationAux w0 order (nb, nu) = some res →
      (∀ x y, get2 res.1 y x =
        if (x, y) ∈ order then w0.next_state x y else get2 nb y x) ∧
      (∀ q, q ∈ res.2 ↔ q ∈ nu ∨ ∃ r ∈ order,
        w0.next_state r.1 r.2 ≠ get2 w0.board r.2 r.1 ∧
        (q = r ∨ q ∈ nbhdList w0.width w0.height r)) ∧
      (∀ y' : Nat, (res.1[y']?).map List.length = (nb[y']?).map List.length) ∧
      (nu.Nodup → res.2.Nodup)) := by
  intro order
  induction order with
  | nil =>
    intro nb nu _ _
    constructor
    · simp [nextGenerationAux]
    · intro res hres
      have hr : res = (nb, nu) := by
        simp only [nextGenerationAux] at hres
        exact (Option.some.inj hres).symm
      subst hr
      refine ⟨?_, ?_, fun _ => rfl, fun h => h⟩
      · intro x y
        rw [if_neg (List.not_mem_nil (x, y))]
      · intro q
        simp
  | cons p rest ih =>
    intro nb nu hnd hb
    have hbp := hb p (List.mem_cons_self p rest)
    have hnd' : rest.Nodup := (List.nodup_cons.1 hnd).2
    have hpnotmem : p ∉ rest := (List.nodup_cons.1 hnd).1
    cases hns : w0.next_state p.1 p.2 with
    | none =>
      have hproc : processPos w0 (nb, nu) p = none := by
        simp only [processPos, hns]
      have haux : nextGenerationAux w0 (p :: rest) (nb, nu) = none := by
        rw [nextGenerationAux_cons, hproc, Option.none_bind]
      constructor
      · rw [haux]
        constructor
        · intro _
          exact ⟨p, List.mem_cons_self p rest, hns⟩
        · intro _
          rfl
      · intro res hres
        rw [haux] at hres
        cases hres
    | some cnext =>
      obtain ⟨c0, hc0⟩ := nextStateCore_some_get2 hns
      have hcur : get2 nb p.2 p.1 = some c0 := by rw [hbp, hc0]
      by_cases hch : cnext = c0
      · -- the cell does not change: the accumulator is passed through
        have hproc : processPos w0 (nb, nu) p = some (nb, nu) := by
          simp only [processPos, hns, hcur]
          rw [if_neg (not_not_intro hch)]
        have haux : nextGenerationAux w0 (p :: rest) (nb, nu) =
            nextGenerationAux w0 rest (nb, nu) := by
          rw [nextGenerationAux_cons, hproc, Option.some_bind]
        have IH := ih nb nu hnd' (fun q hq => hb q (List.mem_cons_of_mem p hq))
        constructor
        · rw [haux, IH.1]
          constructor
          · rintro ⟨q, hq, hqe⟩
            exact ⟨q, List.mem_cons_of_mem p hq, hqe⟩
          · rintro ⟨q, hq, hqe⟩
            rcases List.mem_cons.1 hq with rfl | hq'
            · rw [hns] at hqe
              cases hqe
            · exact ⟨q, hq', hqe⟩
        · intro res hres
          rw [haux] at hres
          obtain ⟨ihb, ihu, ihs, ihn⟩ := IH.2 res hres
          refine ⟨?_, ?_, ihs, ihn⟩
          · intro x y
            rw [ihb x y]
            by_cases hxy : (x, y) ∈ rest
            · rw [if_pos hxy, if_pos (List.mem_cons_of_mem p hxy)]
            · rw [if_neg hxy]
              by_cases hxp : (x, y) = p
              · rw [if_pos (hxp ▸ List.mem_cons_self p rest)]
                have hx : x = p.1 := by rw [← hxp]
                have hy : y = p.2 := by rw [← hxp]
                subst hx
                subst hy
                rw [hcur, hns, hch]
              · rw [if_neg (fun hmem => (List.mem_cons.1 hmem).elim hxp hxy)]
          · intro q
            rw [ihu q]
            constructor
            · rintro (h | ⟨r, hr, hrc, hq⟩)
              · exact Or.inl h
              · exact Or.inr ⟨r, List.mem_cons_of_mem p hr, hrc, hq⟩
            · rintro (h | ⟨r, hr, hrc, hq⟩)
              · exact Or.inl h
              · rcases List.mem_cons.1 hr with rfl | hr'
                · exact absurd (by rw [hns, hc0, hch]) hrc
                · exact Or.inr ⟨r, hr', hrc, hq⟩
      · -- the cell changes: commit the write, mark the neighbourhood
        have hproc : processPos w0 (nb, nu) p = some
            (set2 nb p.2 p.1 cnext,
              insertAllU (nbhdList w0.width w0.height p) (insertU p nu)) := by
          simp only [processPos, hns, hcur]
          rw [if_pos hch]
        have haux : nextGenerationAux w0 (p :: rest) (nb, nu) =
            nextGenerationAux w0 rest
              (set2 nb p.2 p.1 cnext,
                insertAllU (nbhdList w0.width w0.height p) (insertU p nu)) := by
          rw [nextGenerationAux_cons, hproc, Option.some_bind]
        have hb' : ∀ q ∈ rest, get2 (set2 nb p.2 p.1 cnext) q.2 q.1 =
            get2 w0.board q.2 q.1 := by
          intro q hq
          have hqp : q ≠ p := fun h => hpnotmem (h ▸ hq)
          have hqp' : ((q.1 : Nat), (q.2 : Nat)) ≠ (p.1, p.2) := fun hcon => hqp hcon
          rw [get2_set2_ne hqp']
          exact hb q (List.mem_cons_of_mem p hq)
        have hchanged : w0.next_state p.1 p.2 ≠ get2 w0.board p.2 p.1 := by
          rw [hns, hc0]
          intro hcon
          exact hch (Option.some.inj hcon)
        have IH := ih (set2 nb p.2 p.1 cnext)
          (insertAllU (nbhdList w0.width w0.height p) (insertU p nu)) hnd' hb'
        constructor
        · rw [haux, IH.1]
          constructor
          · rintro ⟨q, hq, hqe⟩
            exact ⟨q, List.mem_cons_of_mem p hq, hqe⟩
          · rintro ⟨q, hq, hqe⟩
            rcases List.mem_cons.1 hq with rfl | hq'
            · rw [hns] at hqe
              cases hqe
            · exact ⟨q, hq', hqe⟩
        · intro res hres
          rw [haux] at hres
          obtain ⟨ihb, ihu, ihs, ihn⟩ := IH.2 res hres
          refine ⟨?_, ?_, ?_, ?_⟩
          · intro x y
            rw [ihb x y]
            by_cases hxy : (x, y) ∈ rest
            · rw [if_pos hxy, if_pos (List.mem_cons_of_mem p hxy)]
            · rw [if_neg hxy]
              by_cases hxp : (x, y) = p
              · rw [if_pos (hxp ▸ List.mem_cons_self p rest)]
                have hx : x = p.1 := by rw [← hxp]
                have hy : y = p.2 := by rw [← hxp]
                subst hx
                subst hy
                rw [get2_set2_self hcur, hns]
              · rw [if_neg (fun hmem => (List.mem_cons.1 hmem).elim hxp hxy)]
                exact get2_set2_ne (fun hcon => hxp hcon)
          · intro q
            rw [ihu q, mem_insertAllU, mem_insertU]
            constructor
            · rintro ((hq | hq | hq) | ⟨r, hr, hrc, hq⟩)
              · exact Or.inr ⟨p, List.mem_cons_self p rest, hchanged, Or.inr hq⟩
              · exact Or.inr ⟨p, List.mem_cons_self p rest, hchanged, Or.inl hq⟩
              · exact Or.inl hq
              · exact Or.inr ⟨r, List.mem_cons_of_mem p hr, hrc, hq⟩
            · rintro (h | ⟨r, hr, hrc, hq⟩)
              · exact Or.inl (Or.inr (Or.inr h))
              · rcases List.mem_cons.1 hr with rfl | hr'
                · rcases hq with hq | hq
                  · exact Or.inl (Or.inr (Or.inl hq))
                  · exact Or.inl (Or.inl hq)
                · exact Or.inr ⟨r, hr', hrc, hq⟩
          · intro y'
            exact (ihs y').trans (set2_rowShape y')
          · intro h
            exact ihn (nodup_insertAllU (nodup_insertU h))

/-! ### Step-level consequences -/

theorem next_state_def (w : Wireworld) (x y : Nat) :
    w.next_state x y = nextStateCore w.board w.width w.height x y := rfl

theorem nextGenerationWith_none_iff (w : Wireworld) (order : List (Nat × Nat))
    (hnd : order.Nodup) :
    (nextGenerationWith w order = none ↔ ∃ p ∈ order, w.next_state p.1 p.2 = none) := by
  have H := nextGenerationAux_char w order w.board [] hnd (fun p _ => rfl)
  unfold nextGenerationWith
  rw [Option.map_eq_none', H.1]

theorem nextGenerationWith_some (w : Wireworld) (order : List (Nat × Nat))
    (hnd : order.Nodup) {w' : Wireworld}
    (hsucc : nextGenerationWith w order = some w') :
    w'.width = w.width ∧ w'.height = w.height ∧
    (∀ x y, get2 w'.board y x =
      if (x, y) ∈ order then w.next_state x y else get2 w.board y x) ∧
    (∀ q, q ∈ w'.updates ↔ ∃ r ∈ order,
      w.next_state r.1 r.2 ≠ get2 w.board r.2 r.1 ∧
      (q = r ∨ q ∈ nbhdList w.width w.height r)) ∧
    (∀ y' : Nat, (w'.board[y']?).map List.length = (w.board[y']?).map List.length) ∧
    w'.updates.Nodup := by
  have H := nextGenerationAux_char w order w.board [] hnd (fun p _ => rfl)
  unfold nextGenerationWith at hsucc
  cases haux : nextGenerationAux w order (w.board, []) with
  | none => rw [haux] at hsucc; cases hsucc
  | some res =>
    rw [haux] at hsucc
    have hw' : w' = { w with board := res.1, updates := res.2 } :=
      (Option.some.inj hsucc).symm
    obtain ⟨ihb, ihu, ihs, ihn⟩ := H.2 res haux
    subst hw'
    refine ⟨rfl, rfl, ihb, ?_, ihs, ihn List.nodup_nil⟩
    intro q
    rw [ihu q]
    simp

theorem processPos_frame {w0 : Wireworld} {acc acc' : List (List Cell) × List (Nat × Nat)}
    {p : Nat × Nat} (h : processPos w0 acc p = some acc') {x y : Nat}
    (hne : ((x, y) : Nat × Nat) ≠ p) : get2 acc'.1 y x = get2 acc.1 y x := by
  cases hns : w0.next_state p.1 p.2 with
  | none =>
    simp only [processPos, hns] at h
    cases h
  | some cnext =>
    cases hcur : get2 acc.1 p.2 p.1 with
    | none =>
      simp only [processPos, hns, hcur] at h
      cases h
    | some cur =>
      simp only [processPos, hns, hcur] at h
      by_cases hch : cnext = cur
      · rw [if_neg (not_not_intro hch)] at h
        have hacc := Option.some.inj h
        subst hacc
        rfl
      · rw [if_pos hch] at h
        have hacc := Option.some.inj h
        subst hacc
        exact get2_set2_ne (fun hcon => hne hcon)

theorem nextGenerationAux_frame (w0 : Wireworld) :
    ∀ (order : List (Nat × Nat)) (acc res : List (List Cell) × List (Nat × Nat)),
    nextGenerationAux w0 order acc = some res →
    ∀ x y, ((x, y) : Nat × Nat) ∉ order → get2 res.1 y x = get2 acc.1 y x := by
  intro order
  induction order with
  | nil =>
    intro acc res hres x y _
    have hacc := Option.some.inj hres
    subst hacc
    rfl
  | cons p rest ih =>
    intro acc res hres x y hnm
    rw [nextGenerationAux_cons] at hres
    cases hproc : processPos w0 acc p with
    | none => rw [hproc, Option.none_bind] at hres; cases hres
    | some acc' =>
      rw [hproc, Option.some_bind] at hres
      have hrest : ((x, y) : Nat × Nat) ∉ rest :=
        fun hmem => hnm (List.mem_cons_of_mem p hmem)
      have hxp : ((x, y) : Nat × Nat) ≠ p :=
        fun hmem => hnm (hmem ▸ List.mem_cons_self p rest)
      rw [ih acc' res hres x y hrest]
      exact processPos_frame hproc hxp

/-- The transition of an in-bounds cell that was stable on the old board
stays its current value on a new board that agrees with the old one at the
cell itself and (when the cell is a conductor) on its whole neighbour scan. -/
theorem nextState_stable_transport {w : Wireworld} {b' : List (List Cell)} {a b : Nat}
    (hshape : Shape w.board w.width w.height)
    (ha : a < w.width) (hb : b < w.height)
    (hstab0 : nextStateCore w.board w.width w.height a b = get2 w.board b a)
    (hgu : get2 b' b a = get2 w.board b a)
    (hscan : ∀ r ∈ scanList w.width w.height a b,
      get2 w.board b a = some Cell.Conductor → get2 b' r.2 r.1 = get2 w.board r.2 r.1) :
    nextStateCore b' w.width w.height a b = get2 b' b a := by
  obtain ⟨c0, hc0⟩ := get2_isSome_of_shape hshape ha hb
  have hgu' : get2 b' b a = some c0 := by rw [hgu, hc0]
  cases c0 with
  | Empty => simp only [nextStateCore, hgu']
  | Head =>
    exfalso
    simp only [nextStateCore, hc0] at hstab0
    simp at hstab0
  | Tail =>
    exfalso
    simp only [nextStateCore, hc0] at hstab0
    simp at hstab0
  | Conductor =>
    have hcongr : countHeads b' (scanList w.width w.height a b) =
        countHeads w.board (scanList w.width w.height a b) :=
      countHeads_congr fun r hr => hscan r hr hc0
    simp only [nextStateCore, hc0] at hstab0
    simp only [nextStateCore, hgu']
    rw [hcongr]
    exact hstab0

/-! ### The engine invariant and its preservation -/

theorem shape_new (width height : Nat) :
    Shape (Wireworld.new width height).board width height := by
  constructor
  · exact List.length_replicate ..
  · intro row hrow
    rw [List.eq_of_mem_replicate hrow]
    exact List.length_replicate ..

theorem get2_new {width height x y : Nat} (hx : x < width) (hy : y < height) :
    get2 (Wireworld.new width height).board y x = some Cell.Empty := by
  unfold Wireworld.new get2
  simp [List.getElem?_replicate, hy, hx]

theorem WF_new (width height : Nat) : WF (Wireworld.new width height) := by
  refine ⟨shape_new width height, ?_, List.nodup_nil, ?_⟩
  · intro p hp
    cases hp
  · intro x y hx hy _
    have hx' : x < width := hx
    have hy' : y < height := hy
    have h := get2_new hx' hy'
    rw [next_state_def]
    simp only [nextStateCore, h]

theorem WF_insert_cell {w : Wireworld} (hWF : WF w) {x y : Nat} (hx : x < w.width)
    (hy : y < w.height) (c : Cell) : WF (w.insert_cell c x y) := by
  obtain ⟨hshape, hbound, hnd, hstab⟩ := hWF
  refine ⟨shape_set2 hshape y x c, ?_, nodup_insertAllU (nodup_insertU hnd), ?_⟩
  · intro p hp
    have hp' : p ∈ insertAllU (nbhdList w.width w.height (x, y))
        (insertU (x, y) w.updates) := hp
    rw [mem_insertAllU, mem_insertU] at hp'
    rcases hp' with hp' | hp' | hp'
    · exact nbhdList_inBounds hx hy hp'
    · subst hp'
      exact ⟨hx, hy⟩
    · exact hbound p hp'
  · intro a b ha hb hnm
    have hnm' : ¬(((a, b) : Nat × Nat) ∈ nbhdList w.width w.height (x, y) ∨
        ((a, b) : Nat × Nat) = (x, y) ∨ ((a, b) : Nat × Nat) ∈ w.updates) := by
      intro hcon
      apply hnm
      show ((a, b) : Nat × Nat) ∈ insertAllU (nbhdList w.width w.height (x, y))
        (insertU (x, y) w.updates)
      rw [mem_insertAllU, mem_insertU]
      exact hcon
    push_neg at hnm'
    obtain ⟨hnb, hne, hnu⟩ := hnm'
    have ha' : a < w.width := ha
    have hb' : b < w.height := hb
    have hstab0 : nextStateCore w.board w.width w.height a b = get2 w.board b a := by
      rw [← next_state_def]
      exact hstab a b ha' hb' hnu
    have hgu : get2 (set2 w.board y x c) b a = get2 w.board b a := get2_set2_ne hne
    show nextStateCore (set2 w.board y x c) w.width w.height a b =
      get2 (set2 w.board y x c) b a
    refine nextState_stable_transport hshape ha' hb' hstab0 hgu ?_
    intro r hr hcond
    by_cases hdeg : 2 ≤ w.width ∧ 2 ≤ w.height
    · apply get2_set2_ne
      intro hcon
      have hmem : ((a, b) : Nat × Nat) ∈ nbhdList w.width w.height r :=
        scan_mem_nbhdList hdeg.1 hdeg.2 ha' hb' hr
      rw [show r = ((x : Nat), (y : Nat)) from hcon] at hmem
      exact hnb hmem
    · exfalso
      have hdeg' : w.width = 1 ∨ w.height = 1 := by omega
      have hnone := nextStateCore_conductor_degenerate hshape hdeg' ha' hb' hcond
      rw [hnone, hcond] at hstab0
      cases hstab0

theorem shape_of_rowShape {b b' : List (List Cell)} {w h : Nat}
    (hrows : ∀ y' : Nat, (b'[y']?).map List.length = (b[y']?).map List.length)
    (hs : Shape b w h) : Shape b' w h := by
  obtain ⟨hlen, hrow⟩ := hs
  have key : ∀ i : Nat, i < b'.length ↔ i < b.length := by
    intro i
    constructor
    · intro hi
      by_contra hcon
      have h1 : b[i]? = none := List.getElem?_eq_none (by omega)
      have h2 : b'[i]? = some b'[i] := List.getElem?_eq_getElem hi
      have h3 := hrows i
      rw [h1, h2] at h3
      cases h3
    · intro hi
      by_contra hcon
      have h1 : b'[i]? = none := List.getElem?_eq_none (by omega)
      have h2 : b[i]? = some b[i] := List.getElem?_eq_getElem hi
      have h3 := hrows i
      rw [h1, h2] at h3
      cases h3
  have hle1 : b'.length ≤ b.length := by
    by_contra hcon
    push_neg at hcon
    exact absurd ((key b.length).1 hcon) (lt_irrefl _)
  have hle2 : b.length ≤ b'.length := by
    by_contra hcon
    push_neg at hcon
    exact absurd ((key b'.length).2 hcon) (lt_irrefl _)
  constructor
  · omega
  · intro row' hrow'
    obtain ⟨i, hi⟩ := List.mem_iff_getElem?.1 hrow'
    have hi' : i < b'.length := by
      by_contra hcon
      rw [List.getElem?_eq_none (by omega)] at hi
      cases hi
    have hib : i < b.length := (key i).1 hi'
    have h3 := hrows i
    rw [hi, List.getElem?_eq_getElem hib] at h3
    have : row'.length = b[i].length := Option.some.inj h3
    rw [this]
    exact hrow b[i] (List.getElem_mem hib)

theorem WF_next_generation {w w' : Wireworld} (hWF : WF w)
    (hstep : w.next_generation = some w') : WF w' := by
  obtain ⟨hshape, hbound, hnd, hstab⟩ := hWF
  obtain ⟨hww, hhh, hb, hu, hs, hnd'⟩ := nextGenerationWith_some w w.updates hnd hstep
  have hshape' : Shape w'.board w'.width w'.height := by
    rw [hww, hhh]
    exact shape_of_rowShape hs hshape
  refine ⟨hshape', ?_, hnd', ?_⟩
  · intro q hq
    obtain ⟨r, hr, _, hqr⟩ := (hu q).1 hq
    have hrb := hbound r hr
    rw [hww, hhh]
    rcases hqr with rfl | hqr
    · exact hrb
    · exact nbhdList_inBounds hrb.1 hrb.2 hqr
  · intro a b ha hb' hnm
    have ha' : a < w.width := by rw [← hww]; exact ha
    have hb'' : b < w.height := by rw [← hhh]; exact hb'
    have hnm' : ∀ r, r ∈ w.updates →
        w.next_state r.1 r.2 ≠ get2 w.board r.2 r.1 →
        ¬(((a, b) : Nat × Nat) = r ∨ ((a, b) : Nat × Nat) ∈ nbhdList w.width w.height r) := by
      intro r hr hrc hor
      exact hnm ((hu (a, b)).2 ⟨r, hr, hrc, hor⟩)
    have hstab0 : w.next_state a b = get2 w.board b a := by
      by_cases hmem : ((a, b) : Nat × Nat) ∈ w.updates
      · by_contra hcon
        exact hnm' (a, b) hmem hcon (Or.inl rfl)
      · exact hstab a b ha' hb'' hmem
    have hgu : get2 w'.board b a = get2 w.board b a := by
      rw [hb a b]
      by_cases hmem : ((a, b) : Nat × Nat) ∈ w.updates
      · rw [if_pos hmem]
        exact hstab0
      · rw [if_neg hmem]
    have hstab0' : nextStateCore w.board w.width w.height a b = get2 w.board b a := by
      rw [← next_state_def]
      exact hstab0
    show nextStateCore w'.board w'.width w'.height a b = get2 w'.board b a
    rw [hww, hhh]
    refine nextState_stable_transport hshape ha' hb'' hstab0' hgu ?_
    intro r hr hcond
    by_cases hdeg : 2 ≤ w.width ∧ 2 ≤ w.height
    · rw [hb r.1 r.2]
      by_cases hmem : ((r.1, r.2) : Nat × Nat) ∈ w.updates
      · rw [if_pos hmem]
        by_contra hcon
        refine hnm' (r.1, r.2) hmem hcon
          (Or.inr ?_)
        exact scan_mem_nbhdList hdeg.1 hdeg.2 ha' hb'' hr
      · rw [if_neg hmem]
    · exfalso
      have hdeg' : w.width = 1 ∨ w.height = 1 := by omega
      have hnone := nextStateCore_conductor_degenerate hshape hdeg' ha' hb'' hcond
      rw [hnone, hcond] at hstab0'
      cases hstab0'

theorem WF_applyEdit {w : Wireworld} (hWF : WF w) (x y : Nat) (c : Cell) :
    WF (w.applyEdit x y c) := by
  unfold Wireworld.applyEdit Wireworld.edit
  by_cases hin : x < w.width ∧ y < w.height
  · rw [if_pos hin]
    exact WF_insert_cell hWF hin.1 hin.2 c
  · rw [if_neg hin]
    exact hWF

theorem reachable_WF {w : Wireworld} (h : Reachable w) : WF w := by
  induction h with
  | init width height => exact WF_new width height
  | edit x y c _ ih => exact WF_applyEdit ih x y c
  | step _ hstep ih => exact WF_next_generation ih hstep

/-! ### The brute-force reference step -/

theorem next_generation_def (w : Wireworld) :
    w.next_generation = nextGenerationWith w w.updates := rfl

theorem bruteStep_none_iff (w : Wireworld) :
    bruteStep w = none ↔ ¬(∀ y, y < w.height → ∀ x, x < w.width →
      (nextStateCore w.board w.width w.height x y).isSome) := by
  unfold bruteStep
  by_cases hall : ∀ y, y < w.height → ∀ x, x < w.width →
      (nextStateCore w.board w.width w.height x y).isSome
  · rw [if_pos hall]
    constructor
    · intro hcon
      cases hcon
    · intro hcon
      exact (hcon hall).elim
  · rw [if_neg hall]
    exact iff_of_true rfl hall

theorem bruteStep_some_char {w t : Wireworld} (h : bruteStep w = some t) :
    t.width = w.width ∧ t.height = w.height ∧
    (∀ x y, x < w.width → y < w.height →
      get2 t.board y x = nextStateCore w.board w.width w.height x y) ∧
    Shape t.board w.width w.height := by
  unfold bruteStep at h
  by_cases hall : ∀ y, y < w.height → ∀ x, x < w.width →
      (nextStateCore w.board w.width w.height x y).isSome
  · rw [if_pos hall] at h
    have ht := (Option.some.inj h).symm
    subst ht
    refine ⟨rfl, rfl, ?_, ?_, ?_⟩
    · intro x y hx hy
      unfold get2
      have h1 : ((List.range w.height).map fun y => (List.range w.width).map fun x =>
          (nextStateCore w.board w.width w.height x y).getD Cell.Empty)[y]? =
          some ((List.range w.width).map fun x =>
            (nextStateCore w.board w.width w.height x y).getD Cell.Empty) := by
        rw [List.getElem?_map, List.getElem?_range hy]
        rfl
      rw [h1]
      show ((List.range w.width).map fun x =>
        (nextStateCore w.board w.width w.height x y).getD Cell.Empty)[x]? = _
      rw [List.getElem?_map, List.getElem?_range hx]
      obtain ⟨v, hv⟩ := Option.isSome_iff_exists.1 (hall y hy x hx)
      rw [hv]
      show some ((nextStateCore w.board w.width w.height x y).getD Cell.Empty) = some v
      simp only [hv, Option.getD_some]
    · show ((List.range w.height).map _).length = w.height
      rw [List.length_map, List.length_range]
    · intro row hrow
      show row.length = w.width
      obtain ⟨y', _, hy'⟩ := List.mem_map.1 hrow
      rw [← hy', List.length_map, List.length_range]
  · rw [if_neg hall] at h
    cases h

/-- One incremental tick and one brute-force tick from the same board agree:
they fail together, and on success they produce the same board, with the
engine invariant maintained on the incremental side. -/
theorem step_sim {w t : Wireworld} (hWF : WF w) (hbd : w.board = t.board)
    (hwd : w.width = t.width) (hht : w.height = t.height) :
    (w.next_generation = none ∧ bruteStep t = none) ∨
    (∃ w' t', w.next_generation = some w' ∧ bruteStep t = some t' ∧ WF w' ∧
      w'.board = t'.board ∧ w'.width = t'.width ∧ w'.height = t'.height) := by
  obtain ⟨hshape, hbound, hnd, hstab⟩ := hWF
  have hiff : w.next_generation = none ↔ bruteStep t = none := by
    rw [next_generation_def, nextGenerationWith_none_iff w w.updates hnd,
      bruteStep_none_iff]
    constructor
    · rintro ⟨p, hp, hpe⟩ hall
      have hpb := hbound p hp
      have hsome := hall p.2 (by rw [← hht]; exact hpb.2) p.1 (by rw [← hwd]; exact hpb.1)
      rw [← hbd, ← hwd, ← hht] at hsome
      rw [next_state_def] at hpe
      rw [hpe] at hsome
      cases hsome
    · intro hnall
      push_neg at hnall
      obtain ⟨y, hy, x, hx, hfail⟩ := hnall
      have hfail' : nextStateCore t.board t.width t.height x y = none := by
        cases hns : nextStateCore t.board t.width t.height x y with
        | none => rfl
        | some v =>
          rw [hns] at hfail
          exact absurd rfl hfail
      have hfw : nextStateCore w.board w.width w.height x y = none := by
        rw [hbd, hwd, hht]
        exact hfail'
      have hxw : x < w.width := by rw [hwd]; exact hx
      have hyw : y < w.height := by rw [hht]; exact hy
      by_cases hmem : ((x, y) : Nat × Nat) ∈ w.updates
      · exact ⟨(x, y), hmem, by rw [next_state_def]; exact hfw⟩
      · exfalso
        have hst := hstab x y hxw hyw hmem
        rw [next_state_def, hfw] at hst
        obtain ⟨c0, hc0⟩ := get2_isSome_of_shape hshape hxw hyw
        rw [hc0] at hst
        cases hst
  cases hstep : w.next_generation with
  | none =>
    left
    exact ⟨rfl, hiff.1 hstep⟩
  | some w' =>
    right
    cases hbs : bruteStep t with
    | none =>
      exfalso
      have hcon := hiff.2 hbs
      rw [hstep] at hcon
      cases hcon
    | some t' =>
      obtain ⟨hww, hhh, hb, hu, hs, hnd'⟩ := nextGenerationWith_some w w.updates hnd
        (by rw [← next_generation_def]; exact hstep)
      obtain ⟨htw, hth, htp, htshape⟩ := bruteStep_some_char hbs
      have hshape' : Shape w'.board w.width w.height := shape_of_rowShape hs hshape
      have htshape' : Shape t'.board w.width w.height := by
        rw [hwd, hht]
        exact htshape
      have hpt : ∀ yy xx : Nat, get2 w'.board yy xx = get2 t'.board yy xx := by
        intro yy xx
        by_cases hin : xx < w.width ∧ yy < w.height
        · have htv : get2 t'.board yy xx =
              nextStateCore w.board w.width w.height xx yy := by
            rw [htp xx yy (by rw [← hwd]; exact hin.1) (by rw [← hht]; exact hin.2)]
            rw [hbd, hwd, hht]
          rw [htv, hb xx yy]
          by_cases hmem : ((xx, yy) : Nat × Nat) ∈ w.updates
          · rw [if_pos hmem, next_state_def]
          · rw [if_neg hmem]
            have hst := hstab xx yy hin.1 hin.2 hmem
            rw [next_state_def] at hst
            exact hst.symm
        · push_neg at hin
          rcases Nat.lt_or_ge xx w.width with hxx | hxx
          · have hyy : w.height ≤ yy := hin hxx
            rw [get2_none_of_row_oob hshape' hyy, get2_none_of_row_oob htshape' hyy]
          · rw [get2_none_of_col_oob hshape' hxx, get2_none_of_col_oob htshape' hxx]
      have hboards : w'.board = t'.board :=
        ext2_of_shape hshape' htshape' (fun yy xx => hpt yy xx)
      refine ⟨w', t', rfl, rfl, ?_, hboards, ?_, ?_⟩
      · exact WF_next_generation ⟨hshape, hbound, hnd, hstab⟩ hstep
      · rw [hww, htw]
        exact hwd
      · rw [hhh, hth]
        exact hht

/-! ### Run-level simulation: the incremental engine against brute force -/

theorem applyEdit_in {w : Wireworld} {x y : Nat} (hin : x < w.width ∧ y < w.height)
    (c : Cell) : w.applyEdit x y c = w.insert_cell c x y := by
  unfold Wireworld.applyEdit Wireworld.edit
  rw [if_pos hin]

theorem applyEdit_out {w : Wireworld} {x y : Nat} (hout : ¬(x < w.width ∧ y < w.height))
    (c : Cell) : w.applyEdit x y c = w := by
  unfold Wireworld.applyEdit Wireworld.edit
  rw [if_neg hout]

theorem bruteEdit_in {t : Wireworld} {x y : Nat} (hin : x < t.width ∧ y < t.height)
    (c : Cell) : bruteEdit t x y c = { t with board := set2 t.board y x c } := by
  unfold bruteEdit
  rw [if_pos hin]

theorem bruteEdit_out {t : Wireworld} {x y : Nat} (hout : ¬(x < t.width ∧ y < t.height))
    (c : Cell) : bruteEdit t x y c = t := by
  unfold bruteEdit
  rw [if_neg hout]

theorem run_sim : ∀ (ops : List Op) {w t : Wireworld}, WF w → w.board = t.board →
    w.width = t.width → w.height = t.height →
    (runInc w ops).map Wireworld.board = (runBrute t ops).map Wireworld.board := by
  intro ops
  induction ops with
  | nil =>
    intro w t _ hbd _ _
    show some w.board = some t.board
    rw [hbd]
  | cons op rest ih =>
    intro w t hWF hbd hwd hht
    cases op with
    | edit x y c =>
      show (runInc (w.applyEdit x y c) rest).map Wireworld.board =
        (runBrute (bruteEdit t x y c) rest).map Wireworld.board
      refine ih (WF_applyEdit hWF x y c) ?_ ?_ ?_
      · by_cases hin : x < w.width ∧ y < w.height
        · rw [applyEdit_in hin, bruteEdit_in (by rw [← hwd, ← hht]; exact hin)]
          show set2 w.board y x c = set2 t.board y x c
          rw [hbd]
        · rw [applyEdit_out hin, bruteEdit_out (by rw [← hwd, ← hht]; exact hin)]
          exact hbd
      · by_cases hin : x < w.width ∧ y < w.height
        · rw [applyEdit_in hin, bruteEdit_in (by rw [← hwd, ← hht]; exact hin)]
          exact hwd
        · rw [applyEdit_out hin, bruteEdit_out (by rw [← hwd, ← hht]; exact hin)]
          exact hwd
      · by_cases hin : x < w.width ∧ y < w.height
        · rw [applyEdit_in hin, bruteEdit_in (by rw [← hwd, ← hht]; exact hin)]
          exact hht
        · rw [applyEdit_out hin, bruteEdit_out (by rw [← hwd, ← hht]; exact hin)]
          exact hht
    | step =>
      show (w.next_generation.bind fun w' => runInc w' rest).map Wireworld.board =
        ((bruteStep t).bind fun t' => runBrute t' rest).map Wireworld.board
      rcases step_sim hWF hbd hwd hht with ⟨h1, h2⟩ | ⟨w', t', h1, h2, hWF', hbd', hwd', hht'⟩
      · rw [h1, h2]
        rfl
      · rw [h1, h2, Option.some_bind, Option.some_bind]
        exact ih hWF' hbd' hwd' hht'

/-! ### Quiescence -/

theorem next_generation_empty {w : Wireworld} (hupd : w.updates = []) :
    w.next_generation = some w := by
  rw [next_generation_def, hupd]
  unfold nextGenerationWith
  rw [nextGenerationAux_nil]
  show some { w with board := w.board, updates := [] } = some w
  rw [← hupd]

theorem stepN_new (width height n : Nat) :
    stepN n (Wireworld.new width height) = some (Wireworld.new width height) := by
  induction n with
  | zero => rfl
  | succ n ih =>
    show (Wireworld.new width height).next_generation.bind (stepN n) = _
    rw [next_generation_empty rfl, Option.some_bind, ih]

/-! ### The neighbour scan counts exactly the in-bounds Moore neighbours -/

theorem rangeIncl_nodup (a b : Nat) : (rangeIncl a b).Nodup := List.nodup_range' ..

theorem scanList_nodup (width height x y : Nat) : (scanList width height x y).Nodup := by
  unfold scanList
  rw [List.nodup_flatMap]
  constructor
  · intro cy _
    exact (rangeIncl_nodup ..).map fun a b hab => congrArg Prod.fst hab
  · refine List.Pairwise.imp ?_ (rangeIncl_nodup ..)
    intro a b hab q hqa hqb
    rw [List.mem_map] at hqa hqb
    obtain ⟨c1, _, rfl⟩ := hqa
    obtain ⟨c2, _, h2⟩ := hqb
    exact hab (congrArg Prod.snd h2.symm)

theorem gridList_nodup (width height : Nat) : (gridList width height).Nodup := by
  unfold gridList
  rw [List.nodup_flatMap]
  constructor
  · intro a _
    exact (List.nodup_range height).map fun c d hcd => congrArg Prod.snd hcd
  · refine List.Pairwise.imp ?_ (List.nodup_range width)
    intro a b hab q hqa hqb
    rw [List.mem_map] at hqa hqb
    obtain ⟨c1, _, rfl⟩ := hqa
    obtain ⟨c2, _, h2⟩ := hqb
    exact hab (congrArg Prod.fst h2.symm)

theorem mooreNbrs_nodup (width height x y : Nat) : (mooreNbrs width height x y).Nodup :=
  (gridList_nodup ..).filter _

theorem mem_gridList {width height : Nat} {r : Nat × Nat} :
    r ∈ gridList width height ↔ r.1 < width ∧ r.2 < height := by
  unfold gridList
  rw [List.mem_flatMap]
  constructor
  · rintro ⟨a, ha, hr⟩
    rw [List.mem_map] at hr
    obtain ⟨c, hc, rfl⟩ := hr
    exact ⟨List.mem_range.1 ha, List.mem_range.1 hc⟩
  · rintro ⟨h1, h2⟩
    exact ⟨r.1, List.mem_range.2 h1, List.mem_map.2 ⟨r.2, List.mem_range.2 h2, rfl⟩⟩

theorem mem_mooreNbrs {width height x y : Nat} {r : Nat × Nat} :
    r ∈ mooreNbrs width height x y ↔
      (r.1 < width ∧ r.2 < height) ∧ r ≠ ((x, y) : Nat × Nat) ∧
      x ≤ r.1 + 1 ∧ r.1 ≤ x + 1 ∧ y ≤ r.2 + 1 ∧ r.2 ≤ y + 1 := by
  unfold mooreNbrs
  rw [List.mem_filter, mem_gridList]
  simp only [Bool.and_eq_true, decide_eq_true_eq]
  tauto

theorem mem_scanList_nondeg {width height x y : Nat} {r : Nat × Nat}
    (hw : 2 ≤ width) (hh : 2 ≤ height) (hx : x < width) (hy : y < height) :
    r ∈ scanList width height x y ↔
      r.1 < width ∧ r.2 < height ∧
      x ≤ r.1 + 1 ∧ r.1 ≤ x + 1 ∧ y ≤ r.2 + 1 ∧ r.2 ≤ y + 1 := by
  rw [mem_scanList, usizeSub_sub (by omega : 2 ≤ width),
    usizeSub_sub (by omega : 2 ≤ height), usizeSub_sub (by omega : 1 ≤ width),
    usizeSub_sub (by omega : 1 ≤ height)]
  split_ifs <;> omega

theorem countHeads_eq_countP {b : List (List Cell)} {ps : List (Nat × Nat)}
    (h : ∀ r ∈ ps, (get2 b r.2 r.1).isSome) :
    countHeads b ps =
      some (ps.countP fun r => decide (get2 b r.2 r.1 = some Cell.Head)) := by
  induction ps with
  | nil => rfl
  | cons p rest ih =>
    obtain ⟨c, hc⟩ := Option.isSome_iff_exists.1 (h p (List.mem_cons_self p rest))
    have hr := ih fun r hr => h r (List.mem_cons_of_mem p hr)
    unfold countHeads
    rw [hc, hr, List.countP_cons]
    by_cases hch : c = Cell.Head
    · subst hch
      simp [hc]
    · simp [hc, hch]

theorem scan_headCount_eq {b : List (List Cell)} {width height x y : Nat}
    (hw : 2 ≤ width) (hh : 2 ≤ height) (hx : x < width) (hy : y < height)
    (hcond : get2 b y x = some Cell.Conductor) :
    (scanList width height x y).countP
        (fun r => decide (get2 b r.2 r.1 = some Cell.Head)) =
      mooreHeadCount b width height x y := by
  unfold mooreHeadCount
  rw [List.countP_eq_length_filter, List.countP_eq_length_filter]
  apply List.Perm.length_eq
  apply List.perm_of_nodup_nodup_toFinset_eq
  · exact (scanList_nodup ..).filter _
  · exact (mooreNbrs_nodup ..).filter _
  · apply Finset.ext
    intro r
    rw [List.mem_toFinset, List.mem_toFinset, List.mem_filter, List.mem_filter,
      mem_scanList_nondeg hw hh hx hy, mem_mooreNbrs]
    simp only [decide_eq_true_eq]
    constructor
    · rintro ⟨⟨h1, h2, h3, h4, h5, h6⟩, hhead⟩
      refine ⟨⟨⟨h1, h2⟩, ?_, h3, h4, h5, h6⟩, hhead⟩
      intro hcon
      rw [hcon] at hhead
      have hh2 : get2 b y x = some Cell.Head := hhead
      rw [hcond] at hh2
      cases hh2
    · rintro ⟨⟨⟨h1, h2⟩, _, h3, h4, h5, h6⟩, hhead⟩
      exact ⟨⟨h1, h2, h3, h4, h5, h6⟩, hhead⟩

theorem nextStateCore_conductor_count {b : List (List Cell)} {width height x y : Nat}
    (hshape : Shape b width height) (hw : 2 ≤ width) (hh : 2 ≤ height)
    (hx : x < width) (hy : y < height) (hcond : get2 b y x = some Cell.Conductor) :
    nextStateCore b width height x y =
      some (if mooreHeadCount b width height x y = 1 ∨
          mooreHeadCount b width height x y = 2
        then Cell.Head else Cell.Conductor) := by
  unfold nextStateCore
  rw [hcond]
  have hreads : ∀ r ∈ scanList width height x y, (get2 b r.2 r.1).isSome := by
    intro r hr
    obtain ⟨h1, h2⟩ := scan_inBounds hw hh hx hy hr
    obtain ⟨c, hc⟩ := get2_isSome_of_shape hshape h1 h2
    rw [hc]
    rfl
  rw [countHeads_eq_countP hreads]
  show some (if (scanList width height x y).countP
      (fun r => decide (get2 b r.2 r.1 = some Cell.Head)) = 1 ∨
      (scanList width height x y).countP
      (fun r => decide (get2 b r.2 r.1 = some Cell.Head)) = 2
    then Cell.Head else Cell.Conductor) = _
  rw [scan_headCount_eq hw hh hx hy hcond]

theorem ext2_of_rowShape {b₁ b₂ : List (List Cell)}
    (hrows : ∀ y : Nat, (b₁[y]?).map List.length = (b₂[y]?).map List.length)
    (hp : ∀ y x, get2 b₁ y x = get2 b₂ y x) : b₁ = b₂ := by
  apply List.ext_getElem?
  intro y
  cases hb₁ : b₁[y]? with
  | none =>
    cases hb₂ : b₂[y]? with
    | none => rfl
    | some r₂ =>
      have h := hrows y
      rw [hb₁, hb₂] at h
      cases h
  | some r₁ =>
    cases hb₂ : b₂[y]? with
    | none =>
      have h := hrows y
      rw [hb₁, hb₂] at h
      cases h
    | some r₂ =>
      congr 1
      apply List.ext_getElem?
      intro x
      have e₁ : get2 b₁ y x = r₁[x]? := by
        unfold get2
        rw [hb₁]
        rfl
      have e₂ : get2 b₂ y x = r₂[x]? := by
        unfold get2
        rw [hb₂]
        rfl
      rw [← e₁, ← e₂]
      exact hp y x

/-! ### The claims -/

/-- C1: for every initial grid size, every interleaved sequence of edits and
`step()` calls, and every cell, the state of that cell after the run of the
incremental dirty-set algorithm (`next_generation`) equals the state obtained
by a brute-force recomputation of `next_state` over every in-bounds
coordinate run the same number of times from the same initial edits; the
equality of the `Option` values also makes the two runs fail on exactly the
same sequences. -/
theorem C1_incremental_equiv_bruteforce (width height x y : Nat) (ops : List Op) :
    Option.map (fun s => get2 s.board y x) (runInc (Wireworld.new width height) ops) =
    Option.map (fun s => get2 s.board y x) (runBrute (Wireworld.new width height) ops) := by
  have h := run_sim ops (WF_new width height) rfl rfl rfl
  have e : (fun s : Wireworld => get2 s.board y x) =
      (fun bb => get2 bb y x) ∘ Wireworld.board := rfl
  rw [e, ← Option.map_map, ← Option.map_map, h]

/-- C2: the transition table of `next_state` on any well-shaped grid with
width ≥ 2 and height ≥ 2 — `Empty` stays `Empty`, a `Head` becomes a `Tail`
and a `Tail` becomes a `Conductor` independently of the neighbourhood, and a
`Conductor` becomes a `Head` exactly when the number of in-bounds Moore
neighbours currently holding a `Head` (out-of-bounds positions excluded, the
cell itself not counted) is 1 or 2 — together with the evaluation at the
claim's failing input: on a 1 × 1 grid the `Conductor` branch reads out of
bounds (returns `none`) instead of producing a cell. -/
theorem C2_next_state_rule (b : List (List Cell)) (width height x y : Nat)
    (hshape : Shape b width height) (hw : 2 ≤ width) (hh : 2 ≤ height)
    (hx : x < width) (hy : y < height) :
    (get2 b y x = some Cell.Empty → nextStateCore b width height x y = some Cell.Empty) ∧
    (get2 b y x = some Cell.Head → nextStateCore b width height x y = some Cell.Tail) ∧
    (get2 b y x = some Cell.Tail → nextStateCore b width height x y = some Cell.Conductor) ∧
    (get2 b y x = some Cell.Conductor → nextStateCore b width height x y =
      some (if mooreHeadCount b width height x y = 1 ∨ mooreHeadCount b width height x y = 2
        then Cell.Head else Cell.Conductor)) ∧
    nextStateCore [[Cell.Conductor]] 1 1 0 0 = none := by
  refine ⟨?_, ?_, ?_, ?_, by rfl⟩
  · intro h
    simp only [nextStateCore, h]
  · intro h
    simp only [nextStateCore, h]
  · intro h
    simp only [nextStateCore, h]
  · intro h
    exact nextStateCore_conductor_count hshape hw hh hx hy h

theorem C2_next_state_rule_witness :
    nextStateCore [[Cell.Conductor, Cell.Head], [Cell.Empty, Cell.Empty]] 2 2 0 0 =
      some (if mooreHeadCount [[Cell.Conductor, Cell.Head], [Cell.Empty, Cell.Empty]] 2 2 0 0 = 1 ∨
          mooreHeadCount [[Cell.Conductor, Cell.Head], [Cell.Empty, Cell.Empty]] 2 2 0 0 = 2
        then Cell.Head else Cell.Conductor) :=
  (C2_next_state_rule [[Cell.Conductor, Cell.Head], [Cell.Empty, Cell.Empty]] 2 2 0 0
    (show Shape _ 2 2 from ⟨rfl, by decide⟩) (by decide) (by decide) (by decide)
    (by decide)).2.2.2.1 (by decide)

/-- C3: in every reachable state, whenever a coordinate's stored value
changes — by an edit or by a tick — that coordinate and all of its in-bounds
Moore neighbours are members of the dirty set used for the next tick. -/
theorem C3_dirty_invariant (w : Wireworld) (hr : Reachable w) :
    (∀ x y c (q : Nat × Nat),
      get2 (w.applyEdit x y c).board q.2 q.1 ≠ get2 w.board q.2 q.1 →
      ∀ r, mooreCl w.width w.height q r → r ∈ (w.applyEdit x y c).updates) ∧
    (∀ w', w.next_generation = some w' →
      ∀ q : Nat × Nat, get2 w'.board q.2 q.1 ≠ get2 w.board q.2 q.1 →
      ∀ r, mooreCl w.width w.height q r → r ∈ w'.updates) := by
  obtain ⟨hshape, hbound, hnd, hstab⟩ := reachable_WF hr
  constructor
  · intro x y c q hch r hm
    by_cases hin : x < w.width ∧ y < w.height
    · rw [applyEdit_in hin] at hch ⊢
      have hq : ((q.1, q.2) : Nat × Nat) = (x, y) := by
        by_contra hne
        exact hch (get2_set2_ne hne)
      have hq' : q = ((x : Nat), (y : Nat)) := hq
      subst hq'
      show r ∈ insertAllU (nbhdList w.width w.height (x, y)) (insertU (x, y) w.updates)
      rw [mem_insertAllU]
      exact Or.inl (mooreCl_mem_nbhdList hin.1 hin.2 hm)
    · rw [applyEdit_out hin] at hch
      exact absurd rfl hch
  · intro w' hstep q hch r hm
    obtain ⟨hww, hhh, hb, hu, _, _⟩ := nextGenerationWith_some w w.updates hnd
      (by rw [← next_generation_def]; exact hstep)
    have hbq := hb q.1 q.2
    by_cases hmem : ((q.1, q.2) : Nat × Nat) ∈ w.updates
    · rw [if_pos hmem] at hbq
      have hchval : w.next_state q.1 q.2 ≠ get2 w.board q.2 q.1 := by
        rw [← hbq]
        exact hch
      have hqb := hbound (q.1, q.2) hmem
      apply (hu r).2
      exact ⟨(q.1, q.2), hmem, hchval, Or.inr (mooreCl_mem_nbhdList hqb.1 hqb.2 hm)⟩
    · rw [if_neg hmem] at hbq
      exact absurd hbq hch

theorem C3_dirty_invariant_witness :
    ((0, 0) : Nat × Nat) ∈ ((Wireworld.new 2 2).applyEdit 0 0 Cell.Head).updates :=
  (C3_dirty_invariant (Wireworld.new 2 2) (Reachable.init 2 2)).1 0 0 Cell.Head (0, 0)
    (by decide) (0, 0) (by refine ⟨?_, ?_, ?_, ?_, ?_, ?_⟩ <;> decide)

/-- C4: one tick writes only coordinates of the pre-tick working set; every
coordinate not in the dirty-set snapshot taken at the start of the tick
keeps exactly its previous value. -/
theorem C4_step_frame (w w' : Wireworld) (hstep : w.next_generation = some w')
    (x y : Nat) (hnm : ((x, y) : Nat × Nat) ∉ w.updates) :
    get2 w'.board y x = get2 w.board y x := by
  rw [next_generation_def] at hstep
  unfold nextGenerationWith at hstep
  cases haux : nextGenerationAux w w.updates (w.board, []) with
  | none => rw [haux] at hstep; cases hstep
  | some res =>
    rw [haux] at hstep
    have hw' : w' = { w with board := res.1, updates := res.2 } :=
      (Option.some.inj hstep).symm
    subst hw'
    show get2 res.1 y x = get2 w.board y x
    exact nextGenerationAux_frame w w.updates (w.board, []) res haux x y hnm

theorem C4_step_frame_witness :
    get2 (Wireworld.new 2 2).board 1 0 = get2 (Wireworld.new 2 2).board 1 0 :=
  C4_step_frame (Wireworld.new 2 2) (Wireworld.new 2 2) (by rfl) 0 1 (by decide)

/-- C5: a tick with an empty dirty set returns the state unchanged (board
untouched, dirty set still empty), and a freshly constructed engine stays
all-`Empty` with an empty dirty set after any number of ticks. -/
theorem C5_quiescence (w : Wireworld) (hupd : w.updates = [])
    (width height n x y : Nat) (hx : x < width) (hy : y < height) :
    w.next_generation = some w ∧
    stepN n (Wireworld.new width height) = some (Wireworld.new width height) ∧
    get2 (Wireworld.new width height).board y x = some Cell.Empty ∧
    (Wireworld.new width height).updates = [] :=
  ⟨next_generation_empty hupd, stepN_new width height n, get2_new hx hy, rfl⟩

theorem C5_quiescence_witness :
    (Wireworld.new 3 3).next_generation = some (Wireworld.new 3 3) ∧
    stepN 5 (Wireworld.new 3 3) = some (Wireworld.new 3 3) ∧
    get2 (Wireworld.new 3 3).board 2 1 = some Cell.Empty ∧
    (Wireworld.new 3 3).updates = [] :=
  C5_quiescence (Wireworld.new 3 3) rfl 3 3 5 1 2 (by decide) (by decide)

/-- C6: the spec's 3 × 1 scenario.  Building the row
`[ElectronHead, Conductor, Empty]` by edits and ticking once does not yield
`[ElectronTail, ElectronHead, Empty]`: evaluating the conductor's neighbour
scan reads row 1 of a 1-row board (the wrapped `height - 2` bound), so the
tick aborts — the embedded `next_generation` returns `none` where the Rust
code panics with an out-of-range index. -/
theorem C6_scenario_3x1_errors :
    (((Wireworld.new 3 1).applyEdit 0 0 Cell.Head).applyEdit 1 0
      Cell.Conductor).next_generation = none := by
  decide

/-- C7 counterexample: the source constructor performs no dimension
validation — at width 0 it returns an ordinary engine (here: five empty
rows) instead of failing with `InvalidDimensions`, while the spec-modelled
checking constructor rejects the same dimensions.  This refutes the claim
that construction fails exactly when a dimension is zero. -/
theorem C7_new_zero_width_not_rejected :
    Wireworld.new 0 5 =
      { board := [[], [], [], [], []], width := 0, height := 5, updates := [] } ∧
    newChecked 0 5 = Except.error EngineError.InvalidDimensions :=
  ⟨rfl, rfl⟩

/-- C7 amended: construction never fails; for every width and height (zero
included) the source's `new` returns an engine whose grid maps every
in-bounds coordinate to `Empty` and whose dirty set is empty. -/
theorem C7_new_all_empty (width height x y : Nat) (hx : x < width) (hy : y < height) :
    get2 (Wireworld.new width height).board y x = some Cell.Empty ∧
    (Wireworld.new width height).updates = [] :=
  ⟨get2_new hx hy, rfl⟩

theorem C7_new_all_empty_witness :
    get2 (Wireworld.new 4 3).board 2 3 = some Cell.Empty ∧
    (Wireworld.new 4 3).updates = [] :=
  C7_new_all_empty 4 3 3 2 (by decide) (by decide)

/-- C8: an edit or cell query at any out-of-range coordinate (`x = width` or
`y = height` included) reports `OutOfBounds`; the engine performing such an
edit discards it entirely — grid and dirty set are exactly as before, with
no partial mutation. -/
theorem C8_bounds_rejection (w : Wireworld) (x y : Nat) (c : Cell)
    (hout : ¬(x < w.width ∧ y < w.height)) :
    w.edit x y c = Except.error EngineError.OutOfBounds ∧
    w.cellAt x y = Except.error EngineError.OutOfBounds ∧
    w.applyEdit x y c = w := by
  refine ⟨?_, ?_, applyEdit_out hout c⟩
  · unfold Wireworld.edit
    rw [if_neg hout]
  · unfold Wireworld.cellAt
    rw [if_neg hout]

theorem C8_bounds_rejection_witness :
    (Wireworld.new 2 2).edit 2 0 Cell.Head = Except.error EngineError.OutOfBounds ∧
    (Wireworld.new 2 2).cellAt 2 0 = Except.error EngineError.OutOfBounds ∧
    (Wireworld.new 2 2).applyEdit 2 0 Cell.Head = Wireworld.new 2 2 :=
  C8_bounds_rejection (Wireworld.new 2 2) 2 0 Cell.Head (by decide)

/-- C9: one tick is deterministic — its outcome depends only on the pre-tick
grid and dirty set, not on the iteration order of the unordered hash set:
any two duplicate-free enumerations of the working set fail together, and on
success produce identical boards and identical dirty sets (as sets), with
the dimensions untouched. -/
theorem C9_step_order_independent (w : Wireworld) (o₁ o₂ : List (Nat × Nat))
    (h₁ : o₁.Nodup) (h₂ : o₂.Nodup)
    (hm₁ : ∀ p ∈ o₁, p ∈ w.updates) (hm₁' : ∀ p ∈ w.updates, p ∈ o₁)
    (hm₂ : ∀ p ∈ o₂, p ∈ w.updates) (hm₂' : ∀ p ∈ w.updates, p ∈ o₂) :
    (nextGenerationWith w o₁ = none ↔ nextGenerationWith w o₂ = none) ∧
    ∀ w₁ w₂, nextGenerationWith w o₁ = some w₁ → nextGenerationWith w o₂ = some w₂ →
      w₁.board = w₂.board ∧ (∀ q, q ∈ w₁.updates ↔ q ∈ w₂.updates) ∧
      w₁.width = w₂.width ∧ w₁.height = w₂.height := by
  have hmem : ∀ p : Nat × Nat, p ∈ o₁ ↔ p ∈ o₂ :=
    fun p => ⟨fun h => hm₂' p (hm₁ p h), fun h => hm₁' p (hm₂ p h)⟩
  constructor
  · rw [nextGenerationWith_none_iff w o₁ h₁, nextGenerationWith_none_iff w o₂ h₂]
    constructor
    · rintro ⟨p, hp, hpe⟩
      exact ⟨p, (hmem p).1 hp, hpe⟩
    · rintro ⟨p, hp, hpe⟩
      exact ⟨p, (hmem p).2 hp, hpe⟩
  · intro w₁ w₂ hs₁ hs₂
    obtain ⟨hw1, hh1, hb1, hu1, hsh1, _⟩ := nextGenerationWith_some w o₁ h₁ hs₁
    obtain ⟨hw2, hh2, hb2, hu2, hsh2, _⟩ := nextGenerationWith_some w o₂ h₂ hs₂
    refine ⟨?_, ?_, by rw [hw1, hw2], by rw [hh1, hh2]⟩
    · apply ext2_of_rowShape
      · intro yy
        rw [hsh1 yy, hsh2 yy]
      · intro yy xx
        rw [hb1 xx yy, hb2 xx yy]
        by_cases hmemx : ((xx, yy) : Nat × Nat) ∈ o₁
        · rw [if_pos hmemx, if_pos ((hmem _).1 hmemx)]
        · rw [if_neg hmemx, if_neg (fun hc => hmemx ((hmem _).2 hc))]
    · intro q
      rw [hu1 q, hu2 q]
      constructor
      · rintro ⟨r, hrm, hrc, hq⟩
        exact ⟨r, (hmem r).1 hrm, hrc, hq⟩
      · rintro ⟨r, hrm, hrc, hq⟩
        exact ⟨r, (hmem r).2 hrm, hrc, hq⟩

theorem C9_step_order_independent_witness :
    nextGenerationWith ((Wireworld.new 2 2).applyEdit 0 0 Cell.Head)
        [(0, 0), (1, 0), (0, 1), (1, 1)] = none ↔
    nextGenerationWith ((Wireworld.new 2 2).applyEdit 0 0 Cell.Head)
        [(1, 1), (0, 1), (1, 0), (0, 0)] = none :=
  (C9_step_order_independent ((Wireworld.new 2 2).applyEdit 0 0 Cell.Head)
    [(0, 0), (1, 0), (0, 1), (1, 1)] [(1, 1), (0, 1), (1, 0), (0, 0)]
    (by decide) (by decide) (by decide) (by decide) (by decide) (by decide)).1

/-- C10: on well-shaped boards the neighbour indexing of `next_state` stays
in bounds for every in-bounds coordinate whenever width ≥ 2 and height ≥ 2
(the evaluation always produces a cell); but on any grid with width = 1 or
height = 1, evaluating a `Conductor` cell makes the wrapped `width - 2` /
`height - 2` loop bound exceed the last valid index, so the embedded
`Option`-returning lookup's error branch is reached and `next_state`
returns `none`. -/
theorem C10_neighbour_indexing (b : List (List Cell)) (width height x y : Nat)
    (hshape : Shape b width height) (hx : x < width) (hy : y < height) :
    (2 ≤ width → 2 ≤ height → (nextStateCore b width height x y).isSome) ∧
    ((width = 1 ∨ height = 1) → get2 b y x = some Cell.Conductor →
      nextStateCore b width height x y = none) :=
  ⟨fun hw hh => nextStateCore_isSome hshape hw hh hx hy,
   fun hdeg hc => nextStateCore_conductor_degenerate hshape hdeg hx hy hc⟩

theorem C10_neighbour_indexing_witness :
    ((2 ≤ 1 → 2 ≤ 1 → (nextStateCore [[Cell.Conductor]] 1 1 0 0).isSome) ∧
      (((1 : Nat) = 1 ∨ (1 : Nat) = 1) →
        get2 [[Cell.Conductor]] 0 0 = some Cell.Conductor →
        nextStateCore [[Cell.Conductor]] 1 1 0 0 = none)) :=
  C10_neighbour_indexing [[Cell.Conductor]] 1 1 0 0
    (show Shape _ 1 1 from ⟨rfl, by decide⟩) (by decide) (by decide)
